import Mathlib

/-!
Verification of the VNDB client (src/VNDB.py) against its specification.

The development shallowly embeds the parts of the program the claims are
about: the pagination engine (`VNDBClient.get`), the time-bounded response
cache (`VNDB.get`), the wire codec (`VNDB.sendCommand`, `VNDB.getResponse`,
`VNDB.getRawResponse`), error classification, `VNDBClient.full_search` and
`VNDBClient.search`.  Network effects are made explicit: the server is a
function from page numbers to pages, socket reads are a list of byte
chunks, and the single network round trip of a cache miss is a value
passed in by the caller.
-/

set_option maxHeartbeats 1000000

/-- One page of a `get` response: the item payloads, the server-reported
item count `num`, and the "more pages exist" flag.  This is the shape of
the dict `d` used by `VNDBClient.get` (src/VNDB.py lines 152-159). -/
structure VPage (α : Type) where
  items : List α
  num : Nat
  more : Bool
  deriving DecidableEq

/-- The `while more:` loop of `VNDBClient.get` (src/VNDB.py lines 150-163)
specialized to `ret_dict=True` (item-extraction mode).  `server` stands for
`self._instance.get` at consecutive page numbers, `numLim` is the caller
limit `num`, `page`/`n`/`ret` are the loop variables `options_dict['page']`,
`N` and `ret`.  The embedding additionally records the list `reqs` of page
numbers requested, and uses `fuel` to bound the recursion; `none` means the
fuel ran out before the loop exited. -/
def getLoopItems (server : Nat → VPage α) (numLim : Option Nat) :
    Nat → Nat → Nat → List α → List Nat → Option (List α × List Nat)
  | 0, _, _, _, _ => Option.none
  | fuel + 1, page, n, ret, reqs =>
    let d := server page
    let reqs2 := reqs ++ [page]
    let n2 := n + d.items.length
    let ret2 := ret ++ d.items
    let more2 := match numLim with
      | Option.none => d.more
      | Option.some lim => if lim ≤ n2 then false else d.more
    let ret3 := match numLim with
      | Option.none => ret2
      | Option.some lim => ret2.take lim
    if more2 then getLoopItems server numLim fuel (page + 1) n2 ret3 reqs2
    else Option.some (ret3, reqs2)

/-- The `while more:` loop of `VNDBClient.get` (src/VNDB.py lines 150-163)
specialized to `ret_dict=False` (raw-page mode): `N` advances by the
server-reported `d['num']` and whole pages are appended to `ret`. -/
def getLoopPages (server : Nat → VPage α) (numLim : Option Nat) :
    Nat → Nat → Nat → List (VPage α) → List Nat → Option (List (VPage α) × List Nat)
  | 0, _, _, _, _ => Option.none
  | fuel + 1, page, n, ret, reqs =>
    let d := server page
    let reqs2 := reqs ++ [page]
    let n2 := n + d.num
    let ret2 := ret ++ [d]
    let more2 := match numLim with
      | Option.none => d.more
      | Option.some lim => if lim ≤ n2 then false else d.more
    let ret3 := match numLim with
      | Option.none => ret2
      | Option.some lim => ret2.take lim
    if more2 then getLoopPages server numLim fuel (page + 1) n2 ret3 reqs2
    else Option.some (ret3, reqs2)

/-- `VNDBClient.get` with `ret_dict=True` (src/VNDB.py lines 141-165).
`pageOpt` is the `page` field of the parsed `options` argument; the default
options string contains no `page` key, so `options_dict.setdefault('page', 1)`
starts the counter at 1, which `pageOpt.getD 1` mirrors. -/
def clientGetItems (server : Nat → VPage α) (numLim : Option Nat)
    (pageOpt : Option Nat) (fuel : Nat) : Option (List α × List Nat) :=
  getLoopItems server numLim fuel (pageOpt.getD 1) 0 [] []

/-- `VNDBClient.get` with `ret_dict=False` (src/VNDB.py lines 141-165). -/
def clientGetPages (server : Nat → VPage α) (numLim : Option Nat)
    (pageOpt : Option Nat) (fuel : Nat) : Option (List (VPage α) × List Nat) :=
  getLoopPages server numLim fuel (pageOpt.getD 1) 0 [] []

/-- Concatenation of the item payloads of pages `a, a+1, ..., a+k-1`. -/
def itemsOfPages (server : Nat → VPage α) (a : Nat) : Nat → List α
  | 0 => []
  | k + 1 => (server a).items ++ itemsOfPages server (a + 1) k

/-- The raw pages `a, a+1, ..., a+k-1` in page order. -/
def pagesOf (server : Nat → VPage α) (a : Nat) : Nat → List (VPage α)
  | 0 => []
  | k + 1 => server a :: pagesOf server (a + 1) k

/-- Sum of the server-reported `num` fields of pages `a, ..., a+k-1`. -/
def numSum (server : Nat → VPage α) (a : Nat) : Nat → Nat
  | 0 => 0
  | k + 1 => (server a).num + numSum server (a + 1) k

theorem itemsOfPages_succ_right (server : Nat → VPage α) (a k : Nat) :
    itemsOfPages server a (k + 1) = itemsOfPages server a k ++ (server (a + k)).items := by
  induction k generalizing a with
  | zero => simp [itemsOfPages]
  | succ k ih =>
    rw [itemsOfPages, ih (a + 1), itemsOfPages]
    simp [Nat.add_assoc, Nat.add_comm 1 k]

theorem pagesOf_succ_right (server : Nat → VPage α) (a k : Nat) :
    pagesOf server a (k + 1) = pagesOf server a k ++ [server (a + k)] := by
  induction k generalizing a with
  | zero => simp [pagesOf]
  | succ k ih =>
    rw [pagesOf, ih (a + 1), pagesOf]
    simp [Nat.add_assoc, Nat.add_comm 1 k]

theorem numSum_succ_right (server : Nat → VPage α) (a k : Nat) :
    numSum server a (k + 1) = numSum server a k + (server (a + k)).num := by
  induction k generalizing a with
  | zero => simp [numSum]
  | succ k ih =>
    rw [numSum, ih (a + 1), numSum]
    simp [Nat.add_assoc, Nat.add_comm 1 k]

theorem range'_append_last (s k : Nat) :
    List.range' s k ++ [s + k] = List.range' s (k + 1) := by
  induction k generalizing s with
  | zero => simp [List.range']
  | succ k ih =>
    rw [List.range', List.cons_append, List.range']
    rw [show s + (k + 1) = (s + 1) + k by omega, ih (s + 1)]

/-- Truncating, appending and truncating again is the same as truncating
the full concatenation: the loop-body invariant behind `ret = ret[:num]`. -/
theorem take_append_take (n : Nat) (xs ys : List α) :
    (xs.take n ++ ys).take n = (xs ++ ys).take n := by
  induction xs generalizing n with
  | nil => simp
  | cons x xs ih =>
    cases n with
    | zero => simp
    | succ m => simp [List.take, ih]

theorem getLoopItems_none_spec (server : Nat → VPage α) :
    ∀ fuel page k n ret reqs, page ≤ k → k < page + fuel →
    (∀ i, i < k → page ≤ i → (server i).more = true) →
    (server k).more = false →
    getLoopItems server Option.none fuel page n ret reqs =
      Option.some (ret ++ itemsOfPages server page (k + 1 - page),
        reqs ++ List.range' page (k + 1 - page)) := by
  intro fuel
  induction fuel with
  | zero => intro page k n ret reqs h1 h2 _ _; omega
  | succ fuel ih =>
    intro page k n ret reqs h1 h2 hmore hlast
    rcases Nat.eq_or_lt_of_le h1 with heq | hlt
    · subst heq
      simp only [getLoopItems, hlast]
      rw [show page + 1 - page = 1 by omega]
      simp [itemsOfPages, List.range']
    · have hm : (server page).more = true := hmore page hlt (Nat.le_refl page)
      simp only [getLoopItems, hm]
      rw [ih (page + 1) k (n + (server page).items.length)
        (ret ++ (server page).items) (reqs ++ [page]) hlt (by omega)
        (fun i hik hpi => hmore i hik (by omega)) hlast]
      rw [show k + 1 - page = (k - page) + 1 by omega]
      rw [show k + 1 - (page + 1) = k - page by omega]
      simp [itemsOfPages, List.range', List.append_assoc]

/-- C1: with no caller limit, the fetcher starts at page 1, requests the
consecutive pages `1, 2, ..., k` where `k` is the first page whose `more`
flag is false, and (in item-extraction mode) returns exactly the
concatenation of the pages' items in page order. -/
theorem client_get_nolimit (server : Nat → VPage α) (k fuel : Nat)
    (hk : 1 ≤ k) (hfuel : k ≤ fuel)
    (hmore : ∀ i, i < k → 1 ≤ i → (server i).more = true)
    (hlast : (server k).more = false) :
    clientGetItems server Option.none Option.none fuel =
      Option.some (itemsOfPages server 1 k, List.range' 1 k) := by
  unfold clientGetItems
  simp only [Option.getD_none]
  rw [getLoopItems_none_spec server fuel 1 k 0 [] [] hk (by omega)
    (fun i hik h1i => hmore i hik h1i) hlast]
  rw [show k + 1 - 1 = k by omega]
  simp

/-- A simulated server matching the spec's pagination test: pages of two
items each, `more` true for pages 1 and 2 and false for page 3. -/
def demoServer : Nat → VPage Nat := fun i =>
  if i = 1 then ⟨[1, 2], 2, true⟩
  else if i = 2 then ⟨[3, 4], 2, true⟩
  else ⟨[5, 6], 2, false⟩

theorem client_get_nolimit_witness :
    clientGetItems demoServer Option.none Option.none 3 =
      Option.some ([1, 2, 3, 4, 5, 6], [1, 2, 3]) :=
  Eq.trans
    (client_get_nolimit demoServer 3 3 (by decide) (by decide) (by decide) (by decide))
    (by decide)

theorem getLoopItems_some_spec (server : Nat → VPage α) (lim : Nat) :
    ∀ fuel q k, q + 1 ≤ k → k < q + 1 + fuel →
    (∀ i, i < k → q + 1 ≤ i →
      (server i).more = true ∧ (itemsOfPages server 1 i).length < lim) →
    ((server k).more = false ∨ lim ≤ (itemsOfPages server 1 k).length) →
    getLoopItems server (Option.some lim) fuel (q + 1)
      (itemsOfPages server 1 q).length ((itemsOfPages server 1 q).take lim)
      (List.range' 1 q) =
    Option.some ((itemsOfPages server 1 k).take lim, List.range' 1 k) := by
  intro fuel
  induction fuel with
  | zero => intro q k h1 h2 _ _; omega
  | succ fuel ih =>
    intro q k h1 h2 hcont hstop
    have hn2 : (itemsOfPages server 1 q).length + (server (q + 1)).items.length =
        (itemsOfPages server 1 (q + 1)).length := by
      rw [itemsOfPages_succ_right, Nat.add_comm 1 q]
      simp
    have hret3 : ((itemsOfPages server 1 q).take lim ++ (server (q + 1)).items).take lim =
        (itemsOfPages server 1 (q + 1)).take lim := by
      rw [take_append_take, itemsOfPages_succ_right, Nat.add_comm 1 q]
    have hreqs2 : List.range' 1 q ++ [q + 1] = List.range' 1 (q + 1) := by
      have h := range'_append_last 1 q
      rw [Nat.add_comm 1 q] at h
      exact h
    rcases Nat.eq_or_lt_of_le h1 with heq | hlt
    · simp only [getLoopItems]
      by_cases hlim : lim ≤ (itemsOfPages server 1 q).length + (server (q + 1)).items.length
      · rw [if_pos hlim, if_neg Bool.false_ne_true, hret3, hreqs2, heq]
      · have hmf : (server (q + 1)).more = false := by
          rcases hstop with h | h
          · rw [heq]; exact h
          · rw [← heq, ← hn2] at h; exact absurd h hlim
        rw [if_neg hlim, hmf, if_neg Bool.false_ne_true, hret3, hreqs2, heq]
    · have hc := hcont (q + 1) hlt (Nat.le_refl (q + 1))
      have hlim : ¬ lim ≤ (itemsOfPages server 1 q).length + (server (q + 1)).items.length := by
        rw [hn2]; omega
      simp only [getLoopItems]
      rw [if_neg hlim, hc.1, if_pos rfl, hn2, hret3, hreqs2]
      exact ih (q + 1) k hlt (by omega)
        (fun i hik hqi => hcont i hik (by omega)) hstop

theorem getLoopPages_some_spec (server : Nat → VPage α) (lim : Nat) :
    ∀ fuel q k, q + 1 ≤ k → k < q + 1 + fuel →
    (∀ i, i < k → q + 1 ≤ i →
      (server i).more = true ∧ numSum server 1 i < lim) →
    ((server k).more = false ∨ lim ≤ numSum server 1 k) →
    getLoopPages server (Option.some lim) fuel (q + 1)
      (numSum server 1 q) ((pagesOf server 1 q).take lim)
      (List.range' 1 q) =
    Option.some ((pagesOf server 1 k).take lim, List.range' 1 k) := by
  intro fuel
  induction fuel with
  | zero => intro q k h1 h2 _ _; omega
  | succ fuel ih =>
    intro q k h1 h2 hcont hstop
    have hn2 : numSum server 1 q + (server (q + 1)).num = numSum server 1 (q + 1) := by
      rw [numSum_succ_right, Nat.add_comm 1 q]
    have hret3 : ((pagesOf server 1 q).take lim ++ [server (q + 1)]).take lim =
        (pagesOf server 1 (q + 1)).take lim := by
      rw [take_append_take, pagesOf_succ_right, Nat.add_comm 1 q]
    have hreqs2 : List.range' 1 q ++ [q + 1] = List.range' 1 (q + 1) := by
      have h := range'_append_last 1 q
      rw [Nat.add_comm 1 q] at h
      exact h
    rcases Nat.eq_or_lt_of_le h1 with heq | hlt
    · simp only [getLoopPages]
      by_cases hlim : lim ≤ numSum server 1 q + (server (q + 1)).num
      · rw [if_pos hlim, if_neg Bool.false_ne_true, hret3, hreqs2, heq]
      · have hmf : (server (q + 1)).more = false := by
          rcases hstop with h | h
          · rw [heq]; exact h
          · rw [← heq, ← hn2] at h; exact absurd h hlim
        rw [if_neg hlim, hmf, if_neg Bool.false_ne_true, hret3, hreqs2, heq]
    · have hc := hcont (q + 1) hlt (Nat.le_refl (q + 1))
      have hlim : ¬ lim ≤ numSum server 1 q + (server (q + 1)).num := by
        rw [hn2]; omega
      simp only [getLoopPages]
      rw [if_neg hlim, hc.1, if_pos rfl, hn2, hret3, hreqs2]
      exact ih (q + 1) k hlt (by omega)
        (fun i hik hqi => hcont i hik (by omega)) hstop

/-- C2: with a caller limit `lim`, fetching stops at the first page where
the `more` flag is false or the accumulated count reaches `lim` (so exactly
`ki` resp. `kp` round trips are issued), and the returned sequence is the
accumulated sequence truncated with `take lim` (never more than `lim`
elements), in both extraction modes. -/
theorem client_get_limit (server : Nat → VPage α) (lim ki kp fuel : Nat)
    (hki : 1 ≤ ki) (hkp : 1 ≤ kp) (hfi : ki ≤ fuel) (hfp : kp ≤ fuel)
    (hci : ∀ i, i < ki → 1 ≤ i →
      (server i).more = true ∧ (itemsOfPages server 1 i).length < lim)
    (hsi : (server ki).more = false ∨ lim ≤ (itemsOfPages server 1 ki).length)
    (hcp : ∀ i, i < kp → 1 ≤ i →
      (server i).more = true ∧ numSum server 1 i < lim)
    (hsp : (server kp).more = false ∨ lim ≤ numSum server 1 kp) :
    clientGetItems server (Option.some lim) Option.none fuel =
      Option.some ((itemsOfPages server 1 ki).take lim, List.range' 1 ki) ∧
    clientGetPages server (Option.some lim) Option.none fuel =
      Option.some ((pagesOf server 1 kp).take lim, List.range' 1 kp) := by
  constructor
  · unfold clientGetItems
    simp only [Option.getD_none]
    have h := getLoopItems_some_spec server lim fuel 0 ki hki (by omega) hci hsi
    simpa [itemsOfPages, List.range'] using h
  · unfold clientGetPages
    simp only [Option.getD_none]
    have h := getLoopPages_some_spec server lim fuel 0 kp hkp (by omega) hcp hsp
    simpa [pagesOf, numSum, List.range'] using h

theorem client_get_limit_witness :
    clientGetItems demoServer (Option.some 3) Option.none 2 =
      Option.some ([1, 2, 3], [1, 2]) ∧
    clientGetPages demoServer (Option.some 3) Option.none 2 =
      Option.some ([⟨[1, 2], 2, true⟩, ⟨[3, 4], 2, true⟩], [1, 2]) := by
  have h := client_get_limit demoServer 3 2 2 2 (by decide) (by decide)
    (by decide) (by decide) (by decide) (by decide) (by decide) (by decide)
  exact ⟨Eq.trans h.1 (by decide), Eq.trans h.2 (by decide)⟩

/-- `self.cachetime = 720` (src/VNDB.py line 56). -/
def cachetime : Nat := 720

/-- One element of `self.cache['get']` (src/VNDB.py line 76): insertion
time, query string and stored result. -/
structure CacheEntry (R : Type) where
  time : Nat
  query : String
  results : R

/-- The linear scan of `VNDB.get` (src/VNDB.py lines 70-72): return the
stored result of the first entry whose query matches and whose age is
within the TTL. -/
def cacheLookup (now : Nat) (args : String) : List (CacheEntry R) → Option R
  | [] => Option.none
  | e :: rest =>
    if e.query = args ∧ now < e.time + cachetime then Option.some e.results
    else cacheLookup now args rest

/-- The cache key of `VNDB.get` (src/VNDB.py line 69):
`'{0} {1} {2} {3}'.format(type, flags, filters, options)`. -/
def queryArgs (type flags filters options : String) : String :=
  type ++ " " ++ flags ++ " " ++ filters ++ " " ++ options

/-- `VNDB.get` (src/VNDB.py lines 61-77) with effects explicit: `now` is
`time.time()`, `cache` the current `self.cache['get']`, and `serverRes`
the value the single network round trip would produce on a miss.  Returns
the result, the new cache list, and whether a network send happened. -/
def vndbGet (now : Nat) (cache : List (CacheEntry R))
    (type flags filters options : String) (serverRes : R) :
    R × List (CacheEntry R) × Bool :=
  let args := queryArgs type flags filters options
  match cacheLookup now args cache with
  | Option.some r => (r, cache, false)
  | Option.none => (serverRes, cache ++ [⟨now, args, serverRes⟩], true)

theorem cacheLookup_eq_find (now : Nat) (args : String) (l : List (CacheEntry R)) :
    cacheLookup now args l =
      (l.find? (fun e => decide (e.query = args ∧ now < e.time + cachetime))).map
        CacheEntry.results := by
  induction l with
  | nil => rfl
  | cons e rest ih =>
    by_cases h : e.query = args ∧ now < e.time + cachetime
    · simp [cacheLookup, h, List.find?]
    · simp only [cacheLookup, if_neg h, ih, List.find?]
      rw [decide_eq_false h]

/-- C3: `VNDB.get` returns a stored result with no network send exactly
when some cache entry matches the concatenated query and is still valid
(`now < entry.time + cachetime`); the first (oldest) such entry wins; on a
miss exactly one round trip happens and a new entry timestamped `now` is
appended to the cache, which is otherwise unchanged. -/
theorem vndb_get_cache (R : Type) (now : Nat) (cache : List (CacheEntry R))
    (t f fi o : String) (r : R) :
    (vndbGet now cache t f fi o r =
      match cache.find?
          (fun e => decide (e.query = queryArgs t f fi o ∧ now < e.time + cachetime)) with
      | Option.some e => (e.results, cache, false)
      | Option.none => (r, cache ++ [⟨now, queryArgs t f fi o, r⟩], true)) ∧
    ((vndbGet now cache t f fi o r).2.2 = false ↔
      ∃ e ∈ cache, e.query = queryArgs t f fi o ∧ now < e.time + cachetime) := by
  have hfind := cacheLookup_eq_find now (queryArgs t f fi o) cache
  constructor
  · simp only [vndbGet]
    rw [hfind]
    cases cache.find?
        (fun e => decide (e.query = queryArgs t f fi o ∧ now < e.time + cachetime)) with
    | none => rfl
    | some e => rfl
  · simp only [vndbGet]
    rw [hfind]
    cases hc : cache.find?
        (fun e => decide (e.query = queryArgs t f fi o ∧ now < e.time + cachetime)) with
    | none =>
      constructor
      · intro h; exact absurd h (by simp)
      · intro ⟨e, he, hq, ht⟩
        have : (cache.find?
            (fun e => decide (e.query = queryArgs t f fi o ∧ now < e.time + cachetime))).isSome := by
          rw [List.find?_isSome]
          exact ⟨e, he, by simp [hq, ht]⟩
        rw [hc] at this
        exact absurd this (by simp)
    | some e =>
      constructor
      · intro _
        have hmem := List.mem_of_find?_eq_some hc
        have hp := List.find?_some hc
        simp only [decide_eq_true_eq] at hp
        exact ⟨e, hmem, hp⟩
      · intro _; rfl

/-- The frame delimiter byte `\x04` (src/VNDB.py lines 92, 126, 128). -/
def delimC : Char := '\x04'

/-- ASCII whitespace, the set stripped by Python's `bytes.strip()`
(src/VNDB.py line 128). -/
def wsChar (c : Char) : Bool :=
  c = ' ' || c = '\t' || c = '\n' || c = '\r' || c = '\x0b' || c = '\x0c'

/-- `.strip()` of src/VNDB.py line 128: drop whitespace from both ends. -/
def stripWS (l : List Char) : List Char :=
  ((l.dropWhile (fun c => wsChar c)).reverse.dropWhile (fun c => wsChar c)).reverse

/-- Python's `str.split(' ')` (src/VNDB.py lines 103-105): split on every
single space, keeping empty segments. -/
def splitSp : List Char → List (List Char)
  | [] => [[]]
  | c :: rest =>
    if c = ' ' then [] :: splitSp rest
    else
      match splitSp rest with
      | [] => [[c]]
      | t :: ts => (c :: t) :: ts

/-- Python's `' '.flatten` (src/VNDB.py line 105): the inverse gluing. -/
def joinSp : List (List Char) → List Char
  | [] => []
  | [t] => t
  | t :: ts => t ++ ' ' :: joinSp ts

theorem splitSp_ne_nil (l : List Char) : splitSp l ≠ [] := by
  cases l with
  | nil => simp [splitSp]
  | cons c rest =>
    simp only [splitSp]
    by_cases h : c = ' '
    · simp [h]
    · simp only [if_neg h]
      cases splitSp rest with
      | nil => simp
      | cons t ts => simp

theorem joinSp_splitSp (l : List Char) : joinSp (splitSp l) = l := by
  induction l with
  | nil => rfl
  | cons c rest ih =>
    simp only [splitSp]
    by_cases h : c = ' '
    · rw [if_pos h]
      have hne := splitSp_ne_nil rest
      cases hs : splitSp rest with
      | nil => exact absurd hs hne
      | cons t ts =>
        rw [hs] at ih
        cases ts with
        | nil => simp only [joinSp] at ih ⊢; rw [ih, h]; simp
        | cons t2 ts2 => simp only [joinSp] at ih ⊢; rw [ih, h]; simp
    · rw [if_neg h]
      have hne := splitSp_ne_nil rest
      cases hs : splitSp rest with
      | nil => exact absurd hs hne
      | cons t ts =>
        rw [hs] at ih
        cases ts with
        | nil => simp only [joinSp] at ih ⊢; rw [ih]
        | cons t2 ts2 =>
          simp only [joinSp] at ih ⊢
          rw [List.cons_append, ih]

theorem splitSp_append_token (w p : List Char) (hw : ' ' ∉ w) :
    splitSp (w ++ ' ' :: p) = w :: splitSp p := by
  induction w with
  | nil => simp [splitSp]
  | cons c w ih =>
    have hc : c ≠ ' ' := fun h => hw (by rw [h]; exact List.mem_cons_self ' ' w)
    have hw2 : ' ' ∉ w := fun h => hw (List.mem_cons_of_mem c h)
    simp only [List.cons_append, splitSp, if_neg hc]
    rw [show w.append (' ' :: p) = w ++ ' ' :: p from rfl, ih hw2]

/-- The argument of `VNDB.sendCommand` (src/VNDB.py lines 79-92): absent,
a raw string, or a structured mapping serialized by `json.dumps` (the
serializer is external to the repository and is passed in abstractly). -/
inductive CmdArg (J : Type) where
  | noArg
  | raw (s : List Char)
  | structured (j : J)

/-- The string `whole` built by `VNDB.sendCommand` (src/VNDB.py lines
85-90): the lowercased command, then a space and the raw string or the
serialized mapping when an argument is given. -/
def sendCommandStr (dumps : J → List Char) (command : List Char) : CmdArg J → List Char
  | CmdArg.noArg => command.map Char.toLower
  | CmdArg.raw s => command.map Char.toLower ++ ' ' :: s
  | CmdArg.structured j => command.map Char.toLower ++ ' ' :: dumps j

/-- The frame actually sent (src/VNDB.py line 92): `whole` plus the
delimiter byte. -/
def frameOf (dumps : J → List Char) (command : List Char) (args : CmdArg J) : List Char :=
  sendCommandStr dumps command args ++ [delimC]

/-- `VNDB.getRawResponse`'s post-processing of a received frame
(src/VNDB.py line 128): remove every delimiter byte, then strip
surrounding whitespace. -/
def rawOfFrame (frame : List Char) : List Char :=
  stripWS (frame.filter (fun c => c ≠ delimC))

/-- The status token of `VNDB.getResponse` (src/VNDB.py line 103):
`res.split(' ')[0]`. -/
def responseStatus (res : List Char) : List Char :=
  (splitSp res).headD []

/-- The payload text of `VNDB.getResponse` (src/VNDB.py lines 104-105):
`' '.flatten(res.split(' ')[1:])` when more than one segment exists, before
it is handed to `json.loads`. -/
def responsePayloadText (res : List Char) : Option (List Char) :=
  if 1 < (splitSp res).length then Option.some (joinSp (splitSp res).tail)
  else Option.none

/-- The serialized text of a command argument: what follows the space in
the frame. -/
def argText (dumps : J → List Char) : CmdArg J → Option (List Char)
  | CmdArg.noArg => Option.none
  | CmdArg.raw s => Option.some s
  | CmdArg.structured j => Option.some (dumps j)

theorem dropWhile_eq_self_of_headD (p : Char → Bool) (l : List Char)
    (h : l ≠ []) (hh : p (l.headD 'x') = false) : l.dropWhile p = l := by
  cases l with
  | nil => exact absurd rfl h
  | cons c rest => simp only [List.headD_cons] at hh; simp [List.dropWhile_cons, hh]

theorem stripWS_eq_self (l : List Char) (h : l ≠ [])
    (hh : wsChar (l.headD 'x') = false)
    (hl : wsChar (l.reverse.headD 'x') = false) : stripWS l = l := by
  unfold stripWS
  rw [dropWhile_eq_self_of_headD (fun c => wsChar c) l h hh]
  rw [dropWhile_eq_self_of_headD (fun c => wsChar c) l.reverse
    (by simp [h]) hl]
  exact List.reverse_reverse l

theorem headD_append_of_ne_nil (l1 l2 : List Char) (d : Char) (h : l1 ≠ []) :
    (l1 ++ l2).headD d = l1.headD d := by
  cases l1 with
  | nil => exact absurd rfl h
  | cons a t => rfl

theorem rawOfFrame_whole (whole : List Char) (h : whole ≠ [])
    (hd : delimC ∉ whole)
    (hh : wsChar (whole.headD 'x') = false)
    (hl : wsChar (whole.reverse.headD 'x') = false) :
    rawOfFrame (whole ++ [delimC]) = whole := by
  unfold rawOfFrame
  have hfil : (whole ++ [delimC]).filter (fun c => c ≠ delimC) = whole := by
    rw [List.filter_append]
    have h1 : whole.filter (fun c => c ≠ delimC) = whole := by
      rw [List.filter_eq_self]
      intro a ha
      simp only [decide_eq_true_eq]
      intro hc
      exact hd (hc ▸ ha)
    have h2 : [delimC].filter (fun c => c ≠ delimC) = [] := by simp
    rw [h1, h2, List.append_nil]
  rw [hfil]
  exact stripWS_eq_self whole h hh hl

/-- C4 (amended): decoding the frame built by `sendCommand` recovers the
LOWERCASED command name as the status token, and the argument's serialized
text as the payload text (recovery of the argument modulo serialization
canonicalization), whenever the command is a nonempty token free of
whitespace and delimiter characters and the serialized argument text is
nonempty, delimiter-free and does not end in whitespace. -/
theorem framing_roundtrip (J : Type) (dumps : J → List Char)
    (command : List Char) (args : CmdArg J) (s : List Char)
    (hargs : argText dumps args = Option.some s)
    (hcmd0 : command ≠ [])
    (hcmd : ∀ c ∈ command.map Char.toLower, wsChar c = false ∧ c ≠ delimC)
    (hs0 : s ≠ [])
    (hsd : delimC ∉ s)
    (hst : wsChar (s.reverse.headD 'x') = false) :
    responseStatus (rawOfFrame (frameOf dumps command args)) = command.map Char.toLower ∧
    responsePayloadText (rawOfFrame (frameOf dumps command args)) = Option.some s := by
  have hwhole : sendCommandStr dumps command args = command.map Char.toLower ++ ' ' :: s := by
    cases args with
    | noArg => exact absurd hargs (by simp [argText])
    | raw t =>
      simp only [argText, Option.some.injEq] at hargs
      rw [hargs]; rfl
    | structured j =>
      simp only [argText, Option.some.injEq] at hargs
      rw [← hargs]; rfl
  have hcmd0m : command.map Char.toLower ≠ [] := by
    intro h
    exact hcmd0 (List.map_eq_nil_iff.mp h)
  have hnosp : ' ' ∉ command.map Char.toLower := by
    intro hmem
    have := (hcmd ' ' hmem).1
    simp [wsChar] at this
  have hraw : rawOfFrame (frameOf dumps command args) =
      command.map Char.toLower ++ ' ' :: s := by
    unfold frameOf
    rw [hwhole]
    apply rawOfFrame_whole
    · simp
    · intro hmem
      rcases List.mem_append.mp hmem with h1 | h2
      · exact (hcmd delimC h1).2 rfl
      · rcases List.mem_cons.mp h2 with h3 | h4
        · exact absurd h3.symm (by decide)
        · exact hsd h4
    · rw [headD_append_of_ne_nil _ _ _ hcmd0m]
      cases hc : command.map Char.toLower with
      | nil => exact absurd hc hcmd0m
      | cons a t =>
        have : a ∈ command.map Char.toLower := by rw [hc]; exact List.mem_cons_self a t
        simp only [List.headD_cons]
        exact (hcmd a this).1
    · rw [List.reverse_append, List.reverse_cons]
      have hsrev : s.reverse ≠ [] := by simp [hs0]
      rw [List.append_assoc, headD_append_of_ne_nil _ _ _ hsrev]
      exact hst
  have hsplit : splitSp (command.map Char.toLower ++ ' ' :: s) =
      command.map Char.toLower :: splitSp s :=
    splitSp_append_token _ _ hnosp
  constructor
  · rw [hraw]
    unfold responseStatus
    rw [hsplit]
    rfl
  · rw [hraw]
    unfold responsePayloadText
    rw [hsplit]
    have hlen : 1 < (command.map Char.toLower :: splitSp s).length := by
      simp only [List.length_cons]
      have := List.length_pos.mpr (splitSp_ne_nil s)
      omega
    rw [if_pos hlen]
    simp only [List.tail_cons]
    rw [joinSp_splitSp]

theorem framing_roundtrip_witness :
    responseStatus (rawOfFrame (frameOf (fun _ : Unit => []) "PING".toList
      (CmdArg.raw "x".toList))) = "ping".toList ∧
    responsePayloadText (rawOfFrame (frameOf (fun _ : Unit => []) "PING".toList
      (CmdArg.raw "x".toList))) = Option.some "x".toList := by
  have h := framing_roundtrip Unit (fun _ => []) "PING".toList
    (CmdArg.raw "x".toList) "x".toList (by rfl) (by decide)
    (by decide) (by decide) (by decide) (by decide)
  exact ⟨Eq.trans h.1 (by decide), h.2⟩

/-- C4 as stated fails: an uppercase command name is not recovered — the
status token of the decoded frame is the lowercased command. -/
theorem framing_roundtrip_counterexample :
    responseStatus (rawOfFrame (frameOf (fun _ : Unit => []) "TEST".toList
      (CmdArg.raw "x".toList))) = "test".toList ∧
    "test".toList ≠ "TEST".toList := by
  constructor
  · decide
  · decide

/-- ASCII whitespace on raw bytes, the set stripped by `bytes.strip()`. -/
def wsByte (b : Nat) : Bool :=
  b = 32 || b = 9 || b = 10 || b = 13 || b = 11 || b = 12

/-- `bytes.strip()` on the raw byte level (src/VNDB.py line 128). -/
def stripBytes (l : List Nat) : List Nat :=
  ((l.dropWhile wsByte).reverse.dropWhile wsByte).reverse

/-- The receive loop of `VNDB.getRawResponse` (src/VNDB.py lines 122-128):
`whole` accumulates the socket reads (`chunks` is the sequence of values
`self.sock.recv(4096)` returns); once the accumulated data contains a
delimiter byte `0x04`, every delimiter byte is removed from ALL of it and
the result is stripped.  `none` models a receive that blocks forever
because no delimiter ever arrives. -/
def getRawLoop : List Nat → List (List Nat) → Option (List Nat)
  | _, [] => Option.none
  | whole, c :: rest =>
    if 4 ∈ whole ++ c then
      Option.some (stripBytes ((whole ++ c).filter (fun b => b ≠ 4)))
    else getRawLoop (whole ++ c) rest

/-- `VNDB.getRawResponse` (src/VNDB.py lines 114-128) over a list of
socket reads. -/
def getRawResponseBytes (chunks : List (List Nat)) : Option (List Nat) :=
  getRawLoop [] chunks

/-- Modelled from the claim (the code is compared against this): receive
until the first delimiter byte is observed; the frame content is the
stripped bytes BEFORE that first delimiter, and all bytes after it are
buffered for the next receive. -/
def rawResponseSpec : List Nat → List (List Nat) → Option (List Nat × List Nat)
  | _, [] => Option.none
  | whole, c :: rest =>
    if 4 ∈ whole ++ c then
      Option.some (stripBytes ((whole ++ c).takeWhile (fun b => b ≠ 4)),
        ((whole ++ c).dropWhile (fun b => b ≠ 4)).tail)
    else rawResponseSpec (whole ++ c) rest

/-- C5 as stated fails: on a single read carrying `b"ok\x04err"`, the code
returns the merged content `okerr` — the bytes after the first delimiter
are folded into the current frame instead of being buffered. -/
theorem raw_response_counterexample :
    getRawResponseBytes [[111, 107, 4, 101, 114, 114]] =
      Option.some [111, 107, 101, 114, 114] ∧
    rawResponseSpec [] [[111, 107, 4, 101, 114, 114]] =
      Option.some ([111, 107], [101, 114, 114]) ∧
    ([111, 107, 101, 114, 114] : List Nat) ≠ [111, 107] := by
  refine ⟨?_, ?_, ?_⟩
  · decide
  · decide
  · decide

theorem getRawLoop_spec :
    ∀ chunks whole j, j < chunks.length →
    4 ∈ whole ++ (chunks.take (j + 1)).flatten →
    (∀ i, i < j → 4 ∉ whole ++ (chunks.take (i + 1)).flatten) →
    4 ∉ whole →
    getRawLoop whole chunks =
      Option.some (stripBytes ((whole ++ (chunks.take (j + 1)).flatten).filter
        (fun b => b ≠ 4))) := by
  intro chunks
  induction chunks with
  | nil => intro whole j hj _ _ _; simp at hj
  | cons c rest ih =>
    intro whole j hj hjd hmin hw
    cases j with
    | zero =>
      simp only [List.take, List.flatten_cons, List.flatten_nil, List.append_nil] at hjd ⊢
      simp only [getRawLoop, if_pos hjd]
    | succ i =>
      have h0 : 4 ∉ whole ++ c := by
        have := hmin 0 (Nat.succ_pos i)
        simpa using this
      simp only [getRawLoop, if_neg h0]
      have hi : i < rest.length := by simpa using hj
      have hjd2 : 4 ∈ (whole ++ c) ++ (rest.take (i + 1)).flatten := by
        simpa [List.append_assoc] using hjd
      have hmin2 : ∀ i2, i2 < i → 4 ∉ (whole ++ c) ++ (rest.take (i2 + 1)).flatten := by
        intro i2 hi2
        have := hmin (i2 + 1) (by omega)
        simpa [List.append_assoc] using this
      have hw2 : 4 ∉ whole ++ c := h0
      rw [ih (whole ++ c) i hi hjd2 hmin2 hw2]
      simp [List.append_assoc]

/-- C5 (amended): the receive loop reassembles reads until the first read
after which the accumulated data contains a delimiter byte; it then
removes EVERY delimiter byte from all of the accumulated data and strips
surrounding whitespace, so the bytes received after the first delimiter in
those reads are merged into the current frame's content and nothing is
buffered for a later receive. -/
theorem raw_response_merges (chunks : List (List Nat)) (j : Nat)
    (hj : j < chunks.length)
    (hjd : 4 ∈ (chunks.take (j + 1)).flatten)
    (hmin : ∀ i, i < j → 4 ∉ (chunks.take (i + 1)).flatten) :
    getRawResponseBytes chunks =
      Option.some (stripBytes (((chunks.take (j + 1)).flatten).filter (fun b => b ≠ 4))) := by
  unfold getRawResponseBytes
  have h := getRawLoop_spec chunks [] j hj (by simpa using hjd)
    (fun i hi => by simpa using hmin i hi) (by simp)
  simpa using h

theorem raw_response_merges_witness :
    getRawResponseBytes [[111], [107, 4], [99]] = Option.some [111, 107] := by
  have h := raw_response_merges [[111], [107, 4], [99]] 1 (by decide) (by decide)
    (by decide)
  exact Eq.trans h (by decide)

/-- A JSON-like Python value, as produced by `json.loads`: enough
structure for the payload handling of `VNDB.getResponse` (string values
and string-keyed dicts; other shapes are irrelevant to the claims). -/
inductive PyVal where
  | vstr (s : List Char)
  | vint (n : Int)
  | vdict (fields : List (List Char × PyVal))

/-- Python's `d[k]`: `none` corresponds to a `KeyError` (or a `TypeError`
when the value is not a dict). -/
def PyVal.getItem : PyVal → List Char → Option PyVal
  | PyVal.vdict fields, k => (fields.find? (fun p => p.1 == k)).map (fun p => p.2)
  | _, _ => Option.none

/-- Python's `v == 'lit'` for a string literal. -/
def PyVal.eqStr : PyVal → List Char → Bool
  | PyVal.vstr s, t => s == t
  | _, _ => false

/-- The ways `VNDB.getResponse` (src/VNDB.py lines 94-112) can fail:
`unboundLocal` is Python's `UnboundLocalError` when `args` was never
assigned, `jsonError` a `json.loads` failure, `keyError` a failed
subscript, and `vndbError` the `vndbException` raised for error
responses (the code uses one exception class for the throttled case and
the general case, distinguished only by its message). -/
inductive RespErr where
  | unboundLocal
  | jsonError
  | keyError (k : List Char)
  | vndbError (msg : PyVal)

/-- The fixed message of the throttled branch (src/VNDB.py line 109). -/
def throttledMsg : List Char :=
  "Throttled, limit of 100 commands per 10 minutes".toList

/-- `VNDB.getResponse` (src/VNDB.py lines 94-112) on a raw response text
`res`, with `json.loads` passed in abstractly as `loads` (it is library
code external to the repository).  Mirrors the source: the status is
`res.split(' ')[0]`; `args` is only assigned when a second segment
exists; an `error` status inspects `args['id']` and either raises the
fixed throttled message or `args['msg']`; otherwise `(cmdname, args)` is
returned — which raises `UnboundLocalError` when `args` was never
assigned. -/
def getResponseF (loads : List Char → Option PyVal) (res : List Char) :
    Except RespErr (List Char × PyVal) :=
  let parts := splitSp res
  let cmdname := parts.headD []
  let step : Except RespErr (Option PyVal) :=
    if 1 < parts.length then
      match loads (joinSp parts.tail) with
      | Option.some v => Except.ok (Option.some v)
      | Option.none => Except.error RespErr.jsonError
    else Except.ok Option.none
  match step with
  | Except.error e => Except.error e
  | Except.ok argsOpt =>
    if cmdname = "error".toList then
      match argsOpt with
      | Option.none => Except.error RespErr.unboundLocal
      | Option.some a =>
        match a.getItem "id".toList with
        | Option.none => Except.error (RespErr.keyError "id".toList)
        | Option.some idv =>
          if idv.eqStr "throttled".toList then
            Except.error (RespErr.vndbError (PyVal.vstr throttledMsg))
          else
            match a.getItem "msg".toList with
            | Option.none => Except.error (RespErr.keyError "msg".toList)
            | Option.some m => Except.error (RespErr.vndbError m)
    else
      match argsOpt with
      | Option.none => Except.error RespErr.unboundLocal
      | Option.some a => Except.ok (cmdname, a)

/-- C6: the code, evaluated at the failing input class.  A response that
is a single status token with no payload text makes `getResponse` fail
with `UnboundLocalError` (`args` is never assigned but `return (cmdname,
args)` reads it), instead of returning the status with an absent payload
as the spec requires. -/
theorem single_token_unbound (loads : List Char → Option PyVal) (res : List Char)
    (hlen : (splitSp res).length = 1) :
    getResponseF loads res = Except.error RespErr.unboundLocal := by
  simp only [getResponseF]
  have h1 : ¬ 1 < (splitSp res).length := by omega
  rw [if_neg h1]
  by_cases hc : (splitSp res).headD [] = "error".toList
  · simp [hc]
  · simp [hc]

theorem single_token_unbound_witness :
    getResponseF (fun _ => Option.none) "ok".toList =
      Except.error RespErr.unboundLocal :=
  single_token_unbound (fun _ => Option.none) "ok".toList (by decide)

theorem getResponseF_error_payload (loads : List Char → Option PyVal)
    (res : List Char) (a : PyVal)
    (hlen : 1 < (splitSp res).length)
    (hhead : (splitSp res).headD [] = "error".toList)
    (hloads : loads (joinSp (splitSp res).tail) = Option.some a) :
    getResponseF loads res =
      match a.getItem "id".toList with
      | Option.none => Except.error (RespErr.keyError "id".toList)
      | Option.some idv =>
        if idv.eqStr "throttled".toList then
          Except.error (RespErr.vndbError (PyVal.vstr throttledMsg))
        else
          match a.getItem "msg".toList with
          | Option.none => Except.error (RespErr.keyError "msg".toList)
          | Option.some m => Except.error (RespErr.vndbError m) := by
  obtain ⟨t0, ts, hs⟩ : ∃ t0 ts, splitSp res = t0 :: ts := by
    cases hsp : splitSp res with
    | nil => exact absurd hsp (splitSp_ne_nil res)
    | cons a b => exact ⟨a, b, rfl⟩
  rw [hs] at hlen hhead hloads
  simp only [List.headD_cons] at hhead
  simp only [List.tail_cons] at hloads
  simp only [getResponseF, hs, List.headD_cons, List.tail_cons]
  rw [if_pos hlen, hloads]
  simp [hhead]

/-- C7: an error response whose payload identifier is `throttled` raises
the fixed message `Throttled, limit of 100 commands per 10 minutes`; any
other identifier raises the payload's `msg` field verbatim. -/
theorem throttle_classification (loads : List Char → Option PyVal)
    (res : List Char) (a idv : PyVal)
    (hlen : 1 < (splitSp res).length)
    (hhead : (splitSp res).headD [] = "error".toList)
    (hloads : loads (joinSp (splitSp res).tail) = Option.some a)
    (hid : a.getItem "id".toList = Option.some idv) :
    (idv.eqStr "throttled".toList = true →
      getResponseF loads res =
        Except.error (RespErr.vndbError (PyVal.vstr throttledMsg))) ∧
    (∀ m, idv.eqStr "throttled".toList = false →
      a.getItem "msg".toList = Option.some m →
      getResponseF loads res = Except.error (RespErr.vndbError m)) := by
  have hbase := getResponseF_error_payload loads res a hlen hhead hloads
  rw [hid] at hbase
  constructor
  · intro ht
    refine hbase.trans ?_
    show (if idv.eqStr "throttled".toList = true then
        Except.error (RespErr.vndbError (PyVal.vstr throttledMsg))
      else
        match a.getItem "msg".toList with
        | Option.none => Except.error (RespErr.keyError "msg".toList)
        | Option.some m2 => Except.error (RespErr.vndbError m2)) =
      Except.error (RespErr.vndbError (PyVal.vstr throttledMsg))
    rw [if_pos ht]
  · intro m hf hm
    refine hbase.trans ?_
    show (if idv.eqStr "throttled".toList = true then
        Except.error (RespErr.vndbError (PyVal.vstr throttledMsg))
      else
        match a.getItem "msg".toList with
        | Option.none => Except.error (RespErr.keyError "msg".toList)
        | Option.some m2 => Except.error (RespErr.vndbError m2)) =
      Except.error (RespErr.vndbError m)
    rw [if_neg (by rw [hf]; exact Bool.false_ne_true), hm]

def loadsThrottled : List Char → Option PyVal :=
  fun _ => Option.some (PyVal.vdict
    [("id".toList, PyVal.vstr "throttled".toList)])

theorem throttle_classification_witness :
    getResponseF loadsThrottled "error x".toList =
      Except.error (RespErr.vndbError (PyVal.vstr throttledMsg)) :=
  (throttle_classification loadsThrottled "error x".toList
    (PyVal.vdict [("id".toList, PyVal.vstr "throttled".toList)])
    (PyVal.vstr "throttled".toList)
    (by decide) (by decide) rfl rfl).1 rfl

/-- C8 (amended): an error response whose payload has neither an `id` nor
a `msg` field makes `getResponse` raise a `KeyError` on the `id` lookup —
not a server error with a generic message. -/
theorem error_missing_fields (loads : List Char → Option PyVal)
    (res : List Char) (a : PyVal)
    (hlen : 1 < (splitSp res).length)
    (hhead : (splitSp res).headD [] = "error".toList)
    (hloads : loads (joinSp (splitSp res).tail) = Option.some a)
    (hid : a.getItem "id".toList = Option.none)
    (_hmsg : a.getItem "msg".toList = Option.none) :
    getResponseF loads res = Except.error (RespErr.keyError "id".toList) := by
  have hbase := getResponseF_error_payload loads res a hlen hhead hloads
  rw [hid] at hbase
  exact hbase

def loadsEmptyDict : List Char → Option PyVal :=
  fun _ => Option.some (PyVal.vdict [])

/-- Discriminator: is this failure the `vndbException` the code raises
for server-reported errors? -/
def RespErr.isVndb : RespErr → Bool
  | RespErr.vndbError _ => true
  | _ => false

/-- C8 as stated fails: on the error response `error {}` whose payload is
an empty mapping, the code raises `KeyError('id')`, which is not a server
error carrying any message. -/
theorem error_missing_fields_counterexample :
    getResponseF loadsEmptyDict "error {}".toList =
      Except.error (RespErr.keyError "id".toList) ∧
    RespErr.isVndb (RespErr.keyError "id".toList) = false := by
  constructor
  · rfl
  · rfl

theorem error_missing_fields_witness :
    getResponseF loadsEmptyDict "error x".toList =
      Except.error (RespErr.keyError "id".toList) :=
  error_missing_fields loadsEmptyDict "error x".toList (PyVal.vdict [])
    (by decide) (by decide) rfl rfl rfl

/-- Python's `s.split(sep)` for a one-character separator (src/VNDB.py
line 215: `flags.split(',')`). -/
def splitChar (sep : Char) : List Char → List (List Char)
  | [] => [[]]
  | c :: rest =>
    if c = sep then [] :: splitChar sep rest
    else
      match splitChar sep rest with
      | [] => [[c]]
      | t :: ts => (c :: t) :: ts

/-- Python's `sep.join` (src/VNDB.py line 224: `','.join(flag_list)`). -/
def joinChar (sep : Char) : List (List Char) → List Char
  | [] => []
  | [t] => t
  | t :: ts => t ++ sep :: joinChar sep ts

/-- A Python dict as an association list (a JSON object parsed by
`json.loads` has unique keys in insertion order). -/
def lookupKey (d : List (String × V)) (k : String) : Option V :=
  (d.find? (fun p => p.1 == k)).map (fun p => p.2)

/-- Python's `d[k] = v`: replace the binding in place when the key is
present, otherwise append it. -/
def dictSet (d : List (String × V)) (k : String) (v : V) : List (String × V) :=
  if d.any (fun p => p.1 == k) then
    d.map (fun p => if p.1 == k then (k, v) else p)
  else d ++ [(k, v)]

/-- The flag handling of `VNDBClient.full_search` (src/VNDB.py lines
215-224): split the flags on commas, record and remove the `releases` and
`characters` pseudo-flags, and rejoin the rest. -/
def fullSearchSteps (flags : List Char) : Bool × Bool × List Char :=
  let l := splitChar ',' flags
  let pr := if l.contains "releases".toList then (true, l.erase "releases".toList)
    else (false, l)
  let pc := if pr.2.contains "characters".toList then
      (true, pr.2.erase "characters".toList)
    else (false, pr.2)
  (pr.1, pc.1, joinChar ',' pc.2)

/-- The body of the `for vn in self.search_vn(...)` loop of
`VNDBClient.full_search` (src/VNDB.py lines 226-232): attach the releases
and/or characters sub-results (the dependent calls `search_release(vn['id'])`
and `search_characters(vn['id'])` are passed in abstractly as `relOf` and
`charOf` on the entry's id value).  `none` models the `KeyError` of
`vn['id']` on an entry without an id. -/
def fullSearchEntry (findRel findChar : Bool) (relOf charOf : V → V)
    (vn : List (String × V)) : Option (List (String × V)) := do
  let vn1 ← if findRel then
      match lookupKey vn "id" with
      | Option.some idv => Option.some (dictSet vn "releases" (relOf idv))
      | Option.none => Option.none
    else Option.some vn
  let vn2 ← if findChar then
      match lookupKey vn1 "id" with
      | Option.some idv => Option.some (dictSet vn1 "characters" (charOf idv))
      | Option.none => Option.none
    else Option.some vn1
  Option.some vn2

/-- `VNDBClient.full_search` (src/VNDB.py lines 205-233), with the
underlying primary-entry search `search_vn` passed in as a function of the
stripped flags string. -/
def fullSearch (flags : List Char)
    (searchVn : List Char → List (List (String × V)))
    (relOf charOf : V → V) : Option (List (List (String × V))) :=
  let s := fullSearchSteps flags
  (searchVn s.2.2).mapM (fullSearchEntry s.1 s.2.1 relOf charOf)

theorem lookupKey_dictSet_same (V : Type) (d : List (String × V)) (k : String) (v : V) :
    lookupKey (dictSet d k v) k = Option.some v := by
  induction d with
  | nil => simp [dictSet, lookupKey, List.find?]
  | cons p rest ih =>
    by_cases hp : p.1 == k
    · simp only [dictSet, List.any_cons, hp, Bool.true_or, if_true, List.map_cons,
        if_pos hp, lookupKey, List.find?]
      simp
    · simp only [dictSet, List.any_cons, hp, Bool.false_or]
      by_cases hr : rest.any (fun p => p.1 == k)
      · simp only [hr, if_true, List.map_cons, if_neg hp]
        simp only [lookupKey, List.find?, hp]
        simp only [dictSet, hr, if_true, lookupKey] at ih
        exact ih
      · simp only [hr, if_false, List.cons_append]
        simp only [lookupKey, List.find?, hp]
        simp only [dictSet, hr, if_false, lookupKey] at ih
        exact ih

theorem lookupKey_dictSet_other (V : Type) (d : List (String × V)) (k k2 : String)
    (v : V) (h : k2 ≠ k) :
    lookupKey (dictSet d k v) k2 = lookupKey d k2 := by
  have hkk : (k == k2) = false := by
    rw [beq_eq_false_iff_ne]
    exact fun he => h he.symm
  induction d with
  | nil => simp [dictSet, lookupKey, List.find?, hkk]
  | cons p rest ih =>
    by_cases hp : p.1 == k
    · have hp2 : (p.1 == k2) = false := by
        rw [beq_eq_false_iff_ne]
        have : p.1 = k := by exact eq_of_beq hp
        rw [this]
        exact fun he => h he.symm
      simp only [dictSet, List.any_cons, hp, Bool.true_or, if_true, List.map_cons,
        if_pos hp]
      simp only [lookupKey, List.find?, hkk, hp2]
      by_cases hr : rest.any (fun q => q.1 == k)
      · simp only [dictSet, hr, if_true, lookupKey] at ih
        exact ih
      · -- rest unchanged by the map: no key k inside it
        have hmap : rest.map (fun q => if q.1 == k then (k, v) else q) = rest := by
          have h1 : rest.map (fun q => if q.1 == k then (k, v) else q) = rest.map id := by
            apply List.map_congr_left
            intro q hq
            have hqf : (q.1 == k) = false := by
              by_contra hcon
              have hqt : (q.1 == k) = true := by
                cases hb : q.1 == k
                · exact absurd hb hcon
                · rfl
              exact absurd (List.any_eq_true.mpr ⟨q, hq, hqt⟩) hr
            rw [hqf]
            simp
          rw [h1, List.map_id]
        rw [hmap]
    · simp only [dictSet, List.any_cons, hp, Bool.false_or]
      by_cases hr : rest.any (fun q => q.1 == k)
      · simp only [hr, if_true, List.map_cons, if_neg hp]
        simp only [lookupKey, List.find?]
        by_cases hp2 : p.1 == k2
        · simp [hp2]
        · simp only [hp2]
          simp only [dictSet, hr, if_true, lookupKey] at ih
          exact ih
      · simp only [hr, if_false, List.cons_append]
        simp only [lookupKey, List.find?]
        by_cases hp2 : p.1 == k2
        · simp [hp2]
        · simp only [hp2]
          simp only [dictSet, hr, if_false, lookupKey] at ih
          exact ih

theorem mapM_option_spec (A B : Type) (f : A → Option B) :
    ∀ l : List A, (∀ x ∈ l, (f x).isSome = true) →
    ∃ out, l.mapM f = Option.some out ∧ out.length = l.length ∧
      ∀ (i : Nat) (x : A), l[i]? = Option.some x → out[i]? = f x := by
  intro l
  induction l with
  | nil =>
    intro _
    refine ⟨[], by rfl, rfl, ?_⟩
    intro i x hx
    simp at hx
  | cons x l ih =>
    intro h
    have hx : (f x).isSome = true := h x (List.mem_cons_self x l)
    obtain ⟨y, hy⟩ := Option.isSome_iff_exists.mp hx
    obtain ⟨out, hout, hlen, hidx⟩ := ih (fun a ha => h a (List.mem_cons_of_mem x ha))
    refine ⟨y :: out, ?_, by simp [hlen], ?_⟩
    · rw [List.mapM_cons, hy, hout]
      rfl
    · intro i z hz
      cases i with
      | zero =>
        simp only [List.getElem?_cons_zero, Option.some.injEq] at hz
        rw [hz] at hy
        simp [hy]
      | succ i =>
        simp only [List.getElem?_cons_succ] at hz ⊢
        exact hidx i z hz

/-- C9: when both the `releases` and `characters` flags are requested,
every entry of the underlying primary-entry search comes back at the same
position with a releases sub-result and a characters sub-result attached
under those field names (computed from the entry's id), and every other
field of the entry is unchanged. -/
theorem full_search_attaches (V : Type) (flags : List Char)
    (searchVn : List Char → List (List (String × V))) (relOf charOf : V → V)
    (hrel : (fullSearchSteps flags).1 = true)
    (hchar : (fullSearchSteps flags).2.1 = true)
    (hid : ∀ vn ∈ searchVn (fullSearchSteps flags).2.2,
      (lookupKey vn "id").isSome = true) :
    ∃ out, fullSearch flags searchVn relOf charOf = Option.some out ∧
      out.length = (searchVn (fullSearchSteps flags).2.2).length ∧
      ∀ (i : Nat) vn, (searchVn (fullSearchSteps flags).2.2)[i]? = Option.some vn →
      ∃ idv w, lookupKey vn "id" = Option.some idv ∧ out[i]? = Option.some w ∧
        lookupKey w "releases" = Option.some (relOf idv) ∧
        lookupKey w "characters" = Option.some (charOf idv) ∧
        ∀ k2, k2 ≠ "releases" → k2 ≠ "characters" →
          lookupKey w k2 = lookupKey vn k2 := by
  have hentry : ∀ vn, (lookupKey vn "id").isSome = true →
      ∃ idv, lookupKey vn "id" = Option.some idv ∧
      fullSearchEntry (fullSearchSteps flags).1 (fullSearchSteps flags).2.1
        relOf charOf vn =
        Option.some (dictSet (dictSet vn "releases" (relOf idv)) "characters"
          (charOf idv)) := by
    intro vn hvn
    obtain ⟨idv, hidv⟩ := Option.isSome_iff_exists.mp hvn
    refine ⟨idv, hidv, ?_⟩
    have hid1 : lookupKey (dictSet vn "releases" (relOf idv)) "id" =
        Option.some idv := by
      rw [lookupKey_dictSet_other V vn "releases" "id" (relOf idv) (by decide)]
      exact hidv
    simp only [fullSearchEntry, hrel, hchar, if_true, hidv, hid1, Option.bind_eq_bind,
      Option.some_bind]
  have hsome : ∀ vn ∈ searchVn (fullSearchSteps flags).2.2,
      ((fullSearchEntry (fullSearchSteps flags).1 (fullSearchSteps flags).2.1
        relOf charOf) vn).isSome = true := by
    intro vn hvn
    obtain ⟨idv, _, heq⟩ := hentry vn (hid vn hvn)
    rw [heq]
    rfl
  obtain ⟨out, hout, hlen, hidx⟩ :=
    mapM_option_spec (List (String × V)) (List (String × V))
      (fullSearchEntry (fullSearchSteps flags).1 (fullSearchSteps flags).2.1
        relOf charOf)
      (searchVn (fullSearchSteps flags).2.2) hsome
  refine ⟨out, hout, hlen, ?_⟩
  intro i vn hvn
  have hmem : vn ∈ searchVn (fullSearchSteps flags).2.2 := by
    exact List.getElem?_mem hvn
  obtain ⟨idv, hidv, heq⟩ := hentry vn (hid vn hmem)
  refine ⟨idv, dictSet (dictSet vn "releases" (relOf idv)) "characters" (charOf idv),
    hidv, ?_, ?_, ?_, ?_⟩
  · rw [hidx i vn hvn, heq]
  · rw [lookupKey_dictSet_other V (dictSet vn "releases" (relOf idv)) "characters"
      "releases" (charOf idv) (by decide)]
    exact lookupKey_dictSet_same V vn "releases" (relOf idv)
  · exact lookupKey_dictSet_same V (dictSet vn "releases" (relOf idv)) "characters"
      (charOf idv)
  · intro k2 h1 h2
    rw [lookupKey_dictSet_other V (dictSet vn "releases" (relOf idv)) "characters"
      k2 (charOf idv) h2]
    exact lookupKey_dictSet_other V vn "releases" k2 (relOf idv) h1

theorem full_search_attaches_witness :
    ∃ out, fullSearch "basic,releases,characters".toList
        (fun _ => [[("id", (5 : Nat))]]) (fun n => n + 1) (fun n => n + 2) =
        Option.some out ∧ out.length = 1 := by
  obtain ⟨out, hout, hlen, _⟩ := full_search_attaches Nat
    "basic,releases,characters".toList
    (fun _ => [[("id", (5 : Nat))]]) (fun n => n + 1) (fun n => n + 2)
    (by decide) (by decide) (by decide)
  exact ⟨out, hout, by rw [hlen]; rfl⟩

/-- The record types accepted by `VNDBClient.search` (src/VNDB.py
line 170). -/
def allowedSearchTypes : List String := ["vn", "producer", "character", "staff"]

/-- The filter expression built by `VNDBClient.search` (src/VNDB.py
line 171). -/
def searchFilter (method pattern : String) : String :=
  "(" ++ method ++ "\"" ++ pattern ++ "\")"

/-- `VNDBClient.search` (src/VNDB.py lines 167-171) with the paginated
fetch `self.get` passed in abstractly as `getO`: the method defaults to
the fuzzy token, the record type is checked by an `assert` BEFORE any
command is issued, and only then is the fetch invoked on the built
filter. -/
def clientSearch (R : Type) (getO : String → R) (pattern type : String)
    (method : Option String) : Except String R :=
  let m := method.getD "search~"
  if type ∈ allowedSearchTypes then Except.ok (getO (searchFilter m pattern))
  else Except.error "AssertionError"

/-- C10: `VNDBClient.search` accepts a record type exactly when it is one
of vn, producer, character or staff; any other type — release included —
fails the assertion before any command is sent (the outcome does not
depend on the fetch at all). -/
theorem search_type_guard (R : Type) (getO : String → R) (pattern type : String)
    (method : Option String) :
    ((clientSearch R getO pattern type method).isOk = true ↔
      type ∈ allowedSearchTypes) ∧
    (type = "release" → ∀ getO2 : String → R,
      clientSearch R getO2 pattern type method = Except.error "AssertionError") := by
  constructor
  · constructor
    · intro h
      by_contra hmem
      simp only [clientSearch, if_neg hmem] at h
      simp [Except.isOk, Except.toBool] at h
    · intro hmem
      simp only [clientSearch, if_pos hmem]
      rfl
  · intro ht getO2
    have hmem : type ∉ allowedSearchTypes := by
      rw [ht]
      decide
    simp [clientSearch, if_neg hmem]

theorem search_type_guard_witness :
    clientSearch Nat (fun _ => 0) "x" "release" Option.none =
      Except.error "AssertionError" :=
  (search_type_guard Nat (fun _ => 0) "x" "release" Option.none).2 rfl
    (fun _ => 0)
